import Mathlib

/-!
Verification of the go-xl OpenXML spreadsheet assembly engine.

The Go sources are shallowly embedded: Go strings become `String`/`List Char`,
Go `int` becomes `Int`, byte slices become `List Nat`, Go maps become
association lists (iteration order is irrelevant wherever the source sorts
keys before enumerating, which is proved below), and fallible functions
return `Option`/`Except`.  `float32`/`float64` fields (column widths, font
sizes) are embedded as `ℚ`: the program only compares them for equality or
against zero, and no claim exercises rounding or NaN behaviour.
-/

deriving instance DecidableEq for Except

namespace XL

/-! ## Cell addressing (row.go / part_003)

`ColumnNumberAsLetters` is a direct translation of the source loop

    for n > 0 { s = string(rune((n-1)%26+65)) + s; n = (n - 1) / 26 }

written with a structural fuel argument (`n` iterations always suffice since
the running value strictly decreases); `colLetters_rec` below recovers the
source recurrence.  The Go function panics for `n < 1`; the model returns ""
there, and every theorem about it carries the `1 ≤ n` guard.
-/

def colLettersAux : Nat → Nat → List Char
  | 0, _ => []
  | _, 0 => []
  | fuel + 1, n => colLettersAux fuel ((n - 1) / 26) ++ [Char.ofNat ((n - 1) % 26 + 65)]

def colLetters (n : Nat) : List Char := colLettersAux n n

def ColumnNumberAsLetters (n : Nat) : String := ⟨colLetters n⟩

/-- `CellCoordAsString` from row.go: `ColumnNumberAsLetters(col) + strconv.Itoa(row)`.
The Go function panics for `row < 0` and (via `ColumnNumberAsLetters`) for
`col < 1`; the model clamps the column through `Int.toNat` instead, and the
claims only use it at 1-based coordinates. -/
def CellCoordAsString (col : Int) (row : Int) : String :=
  ColumnNumberAsLetters col.toNat ++ toString row

/-- The column-letter fold inside `parseCellRef`:
`col = col*26 + int(ch-'A') + 1` over the (already uppercased) letters. -/
def colDecode (cs : List Char) : Int :=
  cs.foldl (fun a c => a * 26 + ((c.toNat : Int) - 65) + 1) 0

/-- Digit fold of `strconv.Atoi` (no overflow modelling: Go's `int` is 64-bit
and the claims use small numbers). -/
def digitsVal (ds : List Char) : Int :=
  ds.foldl (fun a c => a * 10 + ((c.toNat : Int) - 48)) 0

def atoiCore (ds : List Char) (sign : Int) : Option Int :=
  if ds.isEmpty then none
  else if ds.any (fun c => !c.isDigit) then none
  else some (sign * digitsVal ds)

/-- `strconv.Atoi`: an optional sign followed by a nonempty digit run. -/
def atoi : List Char → Option Int
  | [] => none
  | c :: rest =>
    if c = '+' then atoiCore rest 1
    else if c = '-' then atoiCore rest (-1)
    else atoiCore (c :: rest) 1

/-- `parseCellRef` from part_003 (on the character list of the reference):
split the leading letter run from the rest, uppercase the letters, require
every letter in `A`..`Z`, fold the column value, and parse the row with
`Atoi`, requiring `row ≥ 1`. -/
def parseCellRefL (cs : List Char) : Option (Int × Int) :=
  let letters := cs.takeWhile Char.isAlpha
  let rest := cs.dropWhile Char.isAlpha
  if letters.isEmpty || rest.isEmpty then none
  else
    let up := letters.map Char.toUpper
    if up.any (fun c => decide (c.toNat < 65) || decide (90 < c.toNat)) then none
    else
      match atoi rest with
      | none => none
      | some row => if row < 1 then none else some (colDecode up, row)

def parseCellRef (s : String) : Option (Int × Int) :=
  parseCellRefL s.toList

/-- `strings.Split(ref, ":")`. -/
def splitColon : List Char → List (List Char)
  | [] => [[]]
  | c :: rest =>
    match splitColon rest with
    | [] => [[c]]
    | g :: gs => if c = ':' then [] :: g :: gs else (c :: g) :: gs

/-- `parseMergeCellRef` from part_003: exactly two `:`-separated parts, each a
valid cell reference. -/
def parseMergeCellRefL (cs : List Char) : Option (Int × Int × Int × Int) :=
  match splitColon cs with
  | [a, b] =>
    match parseCellRefL a, parseCellRefL b with
    | some (c1, r1), some (c2, r2) => some (c1, r1, c2, r2)
    | _, _ => none
  | _ => none

def parseMergeCellRef (s : String) : Option (Int × Int × Int × Int) :=
  parseMergeCellRefL s.toList

/-! ## Merge validation (part_003) -/

structure MergeCell where
  Ref : String
deriving DecidableEq, Repr

inductive MergeErr
  | parse
  | span
  | overlap
deriving DecidableEq, Repr

/-- The coordinate normalisation used throughout part_003:
`if a > b { a, b = b, a }`. -/
def swapIfGt (a b : Int) : Int × Int := if a > b then (b, a) else (a, b)

/-- The overlap scan of `validateMergeRange`: existing ranges that fail to
parse are skipped; a parsed range is normalised and checked with
`!(endCol < existStartCol || startCol > existEndCol || endRow < existStartRow || startRow > existEndRow)`. -/
def overlapCheck (sc sr ec er : Int) (mcs : List MergeCell) : Bool :=
  mcs.any fun mc =>
    match parseMergeCellRef mc.Ref with
    | none => false
    | some (a, b, c, d) =>
      let p := swapIfGt a c
      let q := swapIfGt b d
      !(decide (ec < p.1) || decide (sc > p.2) || decide (er < q.1) || decide (sr > q.2))

/-- `validateMergeRange` from part_003: normalise, reject single-cell ranges,
then reject overlap with any previously stored (parseable) range. -/
def validateMergeRange (mcs : List MergeCell) (startCol startRow endCol endRow : Int) :
    Option MergeErr :=
  let p := swapIfGt startCol endCol
  let q := swapIfGt startRow endRow
  if p.1 = p.2 ∧ q.1 = q.2 then some .span
  else if overlapCheck p.1 q.1 p.2 q.2 mcs then some .overlap
  else none

/-- `Sheet.Merge` (part_003): parse the textual range, validate it, and append
a `MergeCell` holding the caller's reference string verbatim. -/
def Merge (mcs : List MergeCell) (ref : String) : Except MergeErr (List MergeCell) :=
  match parseMergeCellRef ref with
  | none => .error .parse
  | some (c1, r1, c2, r2) =>
    match validateMergeRange mcs c1 r1 c2 r2 with
    | some e => .error e
    | none => .ok (mcs ++ [⟨ref⟩])

/-- `Sheet.MergeRange` (part_003): validate, normalise the coordinates, and
append a `MergeCell` holding the freshly formatted normalised reference. -/
def MergeRange (mcs : List MergeCell) (startCol startRow endCol endRow : Int) :
    Except MergeErr (List MergeCell) :=
  match validateMergeRange mcs startCol startRow endCol endRow with
  | some e => .error e
  | none =>
    let p := swapIfGt startCol endCol
    let q := swapIfGt startRow endRow
    .ok (mcs ++ [⟨CellCoordAsString p.1 q.1 ++ ":" ++ CellCoordAsString p.2 q.2⟩])

/-! ## Column widths (part_003) -/

/-- `Sheet.SetColumnWidth`: the `Columns` Go map is embedded as an association
list.  Non-positive column numbers return immediately; non-positive widths
delete the entry; otherwise the entry is updated or inserted. -/
def SetColumnWidth (cols : List (Int × ℚ)) (colNumber : Int) (w : ℚ) : List (Int × ℚ) :=
  if colNumber ≤ 0 then cols
  else if w ≤ 0 then cols.filter (fun kv => kv.1 != colNumber)
  else if cols.any (fun kv => kv.1 == colNumber) then
    cols.map (fun kv => if kv.1 = colNumber then (kv.1, w) else kv)
  else cols ++ [(colNumber, w)]

/-! ## Lemmas about column-letter encoding -/

lemma colLettersAux_congr (n : Nat) : ∀ f₁ f₂ : Nat, n ≤ f₁ → n ≤ f₂ →
    colLettersAux f₁ n = colLettersAux f₂ n := by
  induction n using Nat.strong_induction_on with
  | _ n ih =>
    intro f₁ f₂ h₁ h₂
    match n, f₁, f₂ with
    | 0, 0, 0 => rfl
    | 0, 0, _ + 1 => rfl
    | 0, _ + 1, 0 => rfl
    | 0, _ + 1, _ + 1 => rfl
    | m + 1, a + 1, b + 1 =>
      simp only [colLettersAux]
      rw [ih ((m + 1 - 1) / 26) (by have := Nat.div_le_self m 26; omega) a b
        (by have := Nat.div_le_self m 26; omega) (by have := Nat.div_le_self m 26; omega)]

/-- The source recurrence of the `ColumnNumberAsLetters` loop. -/
lemma colLetters_rec (n : Nat) (h : n ≠ 0) :
    colLetters n = colLetters ((n - 1) / 26) ++ [Char.ofNat ((n - 1) % 26 + 65)] := by
  obtain ⟨m, rfl⟩ : ∃ m, n = m + 1 := ⟨n - 1, by omega⟩
  show colLettersAux (m + 1) (m + 1) = _
  simp only [colLettersAux, colLetters]
  rw [colLettersAux_congr ((m + 1 - 1) / 26) m ((m + 1 - 1) / 26)
    (by have := Nat.div_le_self m 26; omega) (le_refl _)]

lemma charOfNat_toNat : ∀ m : Nat, m < 91 → (Char.ofNat m).toNat = m := by decide

lemma colDecode_append_singleton (xs : List Char) (c : Char) :
    colDecode (xs ++ [c]) = colDecode xs * 26 + ((c.toNat : Int) - 65) + 1 := by
  simp [colDecode, List.foldl_append]

lemma colDecode_colLetters (n : Nat) : colDecode (colLetters n) = (n : Int) := by
  induction n using Nat.strong_induction_on with
  | _ n ih =>
    by_cases h : n = 0
    · subst h; rfl
    · rw [colLetters_rec n h, colDecode_append_singleton,
        ih ((n - 1) / 26) (by have := Nat.div_le_self (n - 1) 26; omega),
        charOfNat_toNat _ (by have := Nat.mod_lt (n - 1) (show 0 < 26 by norm_num); omega)]
      push_cast
      omega

/-- Every character the encoder produces is an uppercase base-26 digit. -/
lemma colLetters_mem (n : Nat) : ∀ c ∈ colLetters n, ∃ m, m < 26 ∧ c = Char.ofNat (m + 65) := by
  induction n using Nat.strong_induction_on with
  | _ n ih =>
    by_cases h : n = 0
    · subst h; intro c hc; simp [colLetters, colLettersAux] at hc
    · rw [colLetters_rec n h]
      intro c hc
      rcases List.mem_append.1 hc with h1 | h2
      · exact ih ((n - 1) / 26) (by have := Nat.div_le_self (n - 1) 26; omega) c h1
      · refine ⟨(n - 1) % 26, Nat.mod_lt _ (by norm_num), ?_⟩
        simpa using h2

lemma colLetters_ne_nil (n : Nat) (h : n ≠ 0) : colLetters n ≠ [] := by
  rw [colLetters_rec n h]; simp

lemma digit_isAlpha : ∀ m, m < 26 → (Char.ofNat (m + 65)).isAlpha = true := by decide

lemma digit_toUpper : ∀ m, m < 26 → (Char.ofNat (m + 65)).toUpper = Char.ofNat (m + 65) := by
  decide

lemma digit_inRange : ∀ m, m < 26 →
    (decide ((Char.ofNat (m + 65)).toNat < 65) || decide (90 < (Char.ofNat (m + 65)).toNat)) =
      false := by decide

lemma takeWhile_append_of_all {p : Char → Bool} (xs ys : List Char)
    (h : ∀ x ∈ xs, p x = true) :
    List.takeWhile p (xs ++ ys) = xs ++ List.takeWhile p ys := by
  induction xs with
  | nil => simp
  | cons x xs ihx =>
    simp only [List.cons_append, List.takeWhile_cons, h x (by simp)]
    rw [ihx fun y hy => h y (by simp [hy])]
    simp

lemma dropWhile_append_of_all {p : Char → Bool} (xs ys : List Char)
    (h : ∀ x ∈ xs, p x = true) :
    List.dropWhile p (xs ++ ys) = List.dropWhile p ys := by
  induction xs with
  | nil => simp
  | cons x xs ihx =>
    simp only [List.cons_append, List.dropWhile_cons, h x (by simp)]
    exact ihx fun y hy => h y (by simp [hy])

/-- Decoding an encoded column with the full `parseCellRef` (row text "1"
appended to make a well-formed reference) recovers the column number. -/
lemma parseCellRef_encode (n : Nat) (h : 1 ≤ n) :
    parseCellRef (ColumnNumberAsLetters n ++ "1") = some ((n : Int), 1) := by
  have hall : ∀ x ∈ colLetters n, x.isAlpha = true := by
    intro x hx
    obtain ⟨m, hm, rfl⟩ := colLetters_mem n x hx
    exact digit_isAlpha m hm
  have hlist : (ColumnNumberAsLetters n ++ "1").toList = colLetters n ++ ['1'] := rfl
  rw [parseCellRef, hlist, parseCellRefL]
  simp only [takeWhile_append_of_all _ _ hall, dropWhile_append_of_all _ _ hall]
  have h1 : List.takeWhile Char.isAlpha ['1'] = [] := by decide
  have h2 : List.dropWhile Char.isAlpha ['1'] = ['1'] := by decide
  rw [h1, h2]
  have hne : (colLetters n ++ []).isEmpty = false := by
    simp [List.isEmpty_iff, colLetters_ne_nil n (by omega)]
  rw [hne]
  have hmap : (colLetters n ++ []).map Char.toUpper = colLetters n := by
    rw [List.append_nil]
    have hfix : ∀ l : List Char, (∀ x ∈ l, x.toUpper = x) → l.map Char.toUpper = l := by
      intro l hl
      induction l with
      | nil => rfl
      | cons a l ih =>
        simp only [List.map_cons]
        rw [hl a (by simp), ih fun y hy => hl y (by simp [hy])]
    refine hfix _ fun x hx => ?_
    obtain ⟨m, hm, rfl⟩ := colLetters_mem n x hx
    exact digit_toUpper m hm
  simp only [Bool.false_or, List.isEmpty_cons, hmap]
  have hany : (colLetters n).any
      (fun c => decide (c.toNat < 65) || decide (90 < c.toNat)) = false := by
    rw [List.any_eq_false]
    intro x hx
    obtain ⟨m, hm, rfl⟩ := colLetters_mem n x hx
    simp [digit_inRange m hm]
  rw [hany]
  have hatoi : atoi ['1'] = some 1 := by decide
  simp only [Bool.false_eq_true, if_false, hatoi]
  rw [if_neg (by norm_num)]
  rw [colDecode_colLetters]

/-- C4: for every `n ≥ 1` the bijective base-26 decoding used by
`parseCellRef` inverts `ColumnNumberAsLetters` (both as the bare column fold
and through the full cell-reference parser), and the encoding agrees with the
standard sequence at 1, 26, 27 and 702. -/
theorem C4_column_roundtrip :
    (∀ n : Nat, 1 ≤ n → colDecode (colLetters n) = (n : Int)) ∧
    (∀ n : Nat, 1 ≤ n →
      parseCellRef (ColumnNumberAsLetters n ++ "1") = some ((n : Int), 1)) ∧
    ColumnNumberAsLetters 1 = "A" ∧ ColumnNumberAsLetters 26 = "Z" ∧
    ColumnNumberAsLetters 27 = "AA" ∧ ColumnNumberAsLetters 702 = "ZZ" :=
  ⟨fun n _ => colDecode_colLetters n, parseCellRef_encode,
    by decide, by decide, by decide, by decide⟩

/-- Witness for C4 at the concrete column 28 ("AB"). -/
theorem C4_column_roundtrip_witness :
    parseCellRef (ColumnNumberAsLetters 28 ++ "1") = some ((28 : Int), 1) :=
  C4_column_roundtrip.2.1 28 (by norm_num)

/-! ## Merge claims -/

lemma swapIfGt_eq (a b : Int) : swapIfGt a b = (min a b, max a b) := by
  unfold swapIfGt
  split <;> (refine Prod.ext ?_ ?_ <;> simp <;> omega)

/-- Spec-level reading of one step of the overlap scan: the stored range
parses and its normalised closed rectangle intersects the (already
normalised) new rectangle. -/
def Overlaps (sc sr ec er : Int) (mc : MergeCell) : Prop :=
  ∃ a b c d : Int, parseMergeCellRef mc.Ref = some (a, b, c, d) ∧
    ¬(ec < min a c ∨ sc > max a c ∨ er < min b d ∨ sr > max b d)

lemma overlapCheck_iff (sc sr ec er : Int) (mcs : List MergeCell) :
    overlapCheck sc sr ec er mcs = true ↔ ∃ mc ∈ mcs, Overlaps sc sr ec er mc := by
  rw [overlapCheck, List.any_eq_true]
  refine exists_congr fun mc => and_congr_right fun _ => ?_
  cases h : parseMergeCellRef mc.Ref with
  | none =>
    simp only [Overlaps, h]
    simp
  | some v =>
    obtain ⟨a, b, c, d⟩ := v
    simp only [Overlaps, h, swapIfGt_eq]
    simp only [Option.some.injEq, Prod.mk.injEq, Bool.not_eq_true', Bool.or_eq_false_iff,
      decide_eq_false_iff_not]
    constructor
    · rintro ⟨⟨⟨h1, h2⟩, h3⟩, h4⟩
      exact ⟨a, b, c, d, ⟨rfl, rfl, rfl, rfl⟩, by omega⟩
    · rintro ⟨a', b', c', d', ⟨rfl, rfl, rfl, rfl⟩, hov⟩
      constructor
      · constructor
        · constructor <;> omega
        · omega
      · omega

/-- C3: with the new range normalised and spanning at least two cells, both
merge entry points fail with the overlap error exactly when the new closed
rectangle intersects the closed rectangle of some previously stored
(parseable) range, and succeed (appending the new record) when it is disjoint
from all of them. -/
theorem C3_merge_overlap (mcs : List MergeCell) (c1 r1 c2 r2 : Int)
    (hspan : ¬(min c1 c2 = max c1 c2 ∧ min r1 r2 = max r1 r2)) :
    ((∃ mc ∈ mcs, Overlaps (min c1 c2) (min r1 r2) (max c1 c2) (max r1 r2) mc) →
      MergeRange mcs c1 r1 c2 r2 = .error .overlap ∧
      ∀ ref, parseMergeCellRef ref = some (c1, r1, c2, r2) →
        Merge mcs ref = .error .overlap) ∧
    ((∀ mc ∈ mcs, ¬ Overlaps (min c1 c2) (min r1 r2) (max c1 c2) (max r1 r2) mc) →
      MergeRange mcs c1 r1 c2 r2 =
        .ok (mcs ++ [⟨CellCoordAsString (min c1 c2) (min r1 r2) ++ ":" ++
          CellCoordAsString (max c1 c2) (max r1 r2)⟩]) ∧
      ∀ ref, parseMergeCellRef ref = some (c1, r1, c2, r2) →
        Merge mcs ref = .ok (mcs ++ [⟨ref⟩])) := by
  have hval : validateMergeRange mcs c1 r1 c2 r2 =
      if overlapCheck (min c1 c2) (min r1 r2) (max c1 c2) (max r1 r2) mcs then some .overlap
      else none := by
    rw [validateMergeRange]
    simp only [swapIfGt_eq]
    rw [if_neg hspan]
  constructor
  · intro hov
    have hchk : overlapCheck (min c1 c2) (min r1 r2) (max c1 c2) (max r1 r2) mcs = true :=
      (overlapCheck_iff _ _ _ _ _).2 hov
    have hv : validateMergeRange mcs c1 r1 c2 r2 = some .overlap := by
      rw [hval, hchk]; rfl
    refine ⟨?_, fun ref href => ?_⟩
    · rw [MergeRange, hv]
    · rw [Merge, href]
      dsimp only
      rw [hv]
  · intro hdisj
    have hchk : overlapCheck (min c1 c2) (min r1 r2) (max c1 c2) (max r1 r2) mcs = false := by
      rcases h : overlapCheck (min c1 c2) (min r1 r2) (max c1 c2) (max r1 r2) mcs with _ | _
      · rfl
      · obtain ⟨mc, hmc, hovl⟩ := (overlapCheck_iff _ _ _ _ _).1 h
        exact absurd hovl (hdisj mc hmc)
    have hv : validateMergeRange mcs c1 r1 c2 r2 = none := by
      rw [hval, hchk]; rfl
    refine ⟨?_, fun ref href => ?_⟩
    · rw [MergeRange, hv]
      simp only [swapIfGt_eq]
    · rw [Merge, href]
      dsimp only
      rw [hv]

/-- Witness for C3: the example from the spec.  After accepting "A1:B2",
merging "B2:C3" (shares cell B2) fails with the overlap error and merging
"C1:D2" (disjoint) succeeds. -/
theorem C3_merge_overlap_witness :
    Merge [⟨"A1:B2"⟩] "B2:C3" = .error .overlap ∧
    Merge [⟨"A1:B2"⟩] "C1:D2" = .ok [⟨"A1:B2"⟩, ⟨"C1:D2"⟩] := by
  constructor
  · exact ((C3_merge_overlap [⟨"A1:B2"⟩] 2 2 3 3 (by decide)).1
      ⟨⟨"A1:B2"⟩, by decide, 1, 1, 2, 2, by decide, by decide⟩).2 "B2:C3" (by decide)
  · refine ((C3_merge_overlap [⟨"A1:B2"⟩] 3 1 4 2 (by decide)).2 ?_).2 "C1:D2" (by decide)
    intro mc hmc
    rcases List.mem_singleton.1 hmc with rfl
    rintro ⟨a, b, c, d, hp, hov⟩
    rw [show parseMergeCellRef "A1:B2" = some (1, 1, 2, 2) from by decide] at hp
    simp only [Option.some.injEq, Prod.mk.injEq] at hp
    obtain ⟨rfl, rfl, rfl, rfl⟩ := hp
    exact hov (by omega)

/-- C1 as stated is false: `Sheet.Merge` stores the caller's textual range
verbatim, without normalising the endpoint order, while `Sheet.MergeRange`
stores the normalised form.  The textual request "B2:A1" and the coordinate
request (2,2,1,1) describe the same rectangle, both are accepted, yet the
stored `MergeCell` records differ. -/
theorem C1_counterexample :
    parseMergeCellRef "B2:A1" = some (2, 2, 1, 1) ∧
    Merge [] "B2:A1" = .ok [⟨"B2:A1"⟩] ∧
    MergeRange [] 2 2 1 1 = .ok [⟨"A1:B2"⟩] ∧
    ("B2:A1" : String) ≠ "A1:B2" := by
  refine ⟨by decide, by decide, by decide, by decide⟩

/-- C1 amended: for every pair of equivalent accepted merge requests,
`MergeRange` appends the normalised textual form (endpoints ordered so that
start ≤ end on each axis), while `Merge` appends the caller's textual range
verbatim; the two records therefore coincide exactly when the textual range
is already in the normalised form. -/
theorem C1_merge_stored_forms (mcs : List MergeCell) (ref : String) (c1 r1 c2 r2 : Int)
    (hp : parseMergeCellRef ref = some (c1, r1, c2, r2))
    (hv : validateMergeRange mcs c1 r1 c2 r2 = none) :
    Merge mcs ref = .ok (mcs ++ [⟨ref⟩]) ∧
    MergeRange mcs c1 r1 c2 r2 =
      .ok (mcs ++ [⟨CellCoordAsString (min c1 c2) (min r1 r2) ++ ":" ++
        CellCoordAsString (max c1 c2) (max r1 r2)⟩]) ∧
    (Merge mcs ref = MergeRange mcs c1 r1 c2 r2 ↔
      ref = CellCoordAsString (min c1 c2) (min r1 r2) ++ ":" ++
        CellCoordAsString (max c1 c2) (max r1 r2)) := by
  have h1 : Merge mcs ref = .ok (mcs ++ [⟨ref⟩]) := by
    rw [Merge, hp]
    dsimp only
    rw [hv]
  have h2 : MergeRange mcs c1 r1 c2 r2 =
      .ok (mcs ++ [⟨CellCoordAsString (min c1 c2) (min r1 r2) ++ ":" ++
        CellCoordAsString (max c1 c2) (max r1 r2)⟩]) := by
    rw [MergeRange, hv]
    simp only [swapIfGt_eq]
  refine ⟨h1, h2, ?_⟩
  rw [h1, h2]
  constructor
  · intro h
    have := List.append_cancel_left (Except.ok.inj h)
    simpa using congrArg MergeCell.Ref (List.head_eq_of_cons_eq this)
  · rintro rfl
    rfl

/-- Witness for C1 amended at the already-normalised request "A1:B2" /
(1,1,2,2) on an empty sheet. -/
theorem C1_merge_stored_forms_witness :
    Merge [] "A1:B2" = .ok [⟨"A1:B2"⟩] ∧
    MergeRange [] 1 1 2 2 = .ok [⟨CellCoordAsString (min 1 2) (min 1 2) ++ ":" ++
      CellCoordAsString (max 1 2) (max 1 2)⟩] :=
  ⟨(C1_merge_stored_forms [] "A1:B2" 1 1 2 2 (by decide) (by decide)).1,
    by
      have := (C1_merge_stored_forms [] "A1:B2" 1 1 2 2 (by decide) (by decide)).2.1
      simpa using this⟩

/-! ## Column-width claim -/

/-- C10: `SetColumnWidth` with a non-positive column number is a silent
no-op: the column map is returned unchanged for every width value. -/
theorem C10_setColumnWidth_nonpositive_noop (cols : List (Int × ℚ)) (colNumber : Int) (w : ℚ)
    (h : colNumber ≤ 0) : SetColumnWidth cols colNumber w = cols := by
  rw [SetColumnWidth, if_pos h]

/-- Witness for C10 at column 0 and a positive width over a nonempty map. -/
theorem C10_setColumnWidth_nonpositive_noop_witness :
    SetColumnWidth [(1, (5 : ℚ))] 0 7 = [(1, (5 : ℚ))] :=
  C10_setColumnWidth_nonpositive_noop [(1, (5 : ℚ))] 0 7 (by norm_num)

/-! ## Sorted map enumeration (writer.go `enumerate`)

Go maps iterate in unspecified order; `enumerate` collects the keys, sorts
them, and visits the entries in sorted key order.  The map is embedded as an
association list whose order is arbitrary (standing for the unspecified
iteration order); `enumerate` sorts the entries by key.  The theorems below
show the result is sorted and independent of the entry order, which is the
whole content of the determinism claim: the only run-to-run nondeterminism in
the writer is map iteration order (plus the creation timestamp, which the
claim fixes). -/

def enumerate {K V : Type} [LinearOrder K] (m : List (K × V)) : List (K × V) :=
  m.insertionSort fun a b => a.1 ≤ b.1

/-- `RelInfo` from writer.go (`Type` is a Lean keyword, hence `typeUri`). -/
structure RelInfo where
  typeUri : String
  target : String
deriving DecidableEq, Repr

/-- One `<Relationship .../>` element as `writeRels` emits it. -/
def relTag (rid : String) (info : RelInfo) : String :=
  "<Relationship Id=" ++ rid ++ " Type=" ++ info.typeUri ++ " Target=" ++ info.target ++ "/>"

/-- `writeRels` from writer.go: fixed prologue, one element per relationship
in sorted key order, fixed epilogue. -/
def writeRels (rels : List (String × RelInfo)) : String :=
  (enumerate rels).foldl (fun acc kv => acc ++ relTag kv.1 kv.2)
    "<?xml?><Relationships>" ++ "</Relationships>"

/-- `writeContentTypes` from writer.go: `<Default>` elements from the
extension map then `<Override>` elements from the part map, each in sorted
key order. -/
def writeContentTypes (defaults parts : List (String × String)) : String :=
  ((enumerate parts).foldl (fun acc kv => acc ++ "<Override PartName=" ++ kv.1 ++
      " ContentType=" ++ kv.2 ++ "/>")
    ((enumerate defaults).foldl (fun acc kv => acc ++ "<Default Extension=" ++ kv.1 ++
      " ContentType=" ++ kv.2 ++ "/>")
      "<?xml?><Types>")) ++ "</Types>"

lemma enumerate_perm {K V : Type} [LinearOrder K] (m : List (K × V)) :
    (enumerate m).Perm m :=
  List.perm_insertionSort _ m

lemma enumerate_sorted {K V : Type} [LinearOrder K] (m : List (K × V)) :
    (enumerate m).Sorted fun a b => a.1 ≤ b.1 := by
  have : IsTotal (K × V) fun a b => a.1 ≤ b.1 := ⟨fun a b => le_total a.1 b.1⟩
  have : IsTrans (K × V) fun a b => a.1 ≤ b.1 := ⟨fun _ _ _ h1 h2 => le_trans h1 h2⟩
  exact List.sorted_insertionSort _ m

lemma enumerate_sorted_lt {K V : Type} [LinearOrder K] (m : List (K × V))
    (hnd : (m.map Prod.fst).Nodup) :
    (enumerate m).Sorted fun a b => a.1 < b.1 := by
  have hle := enumerate_sorted m
  have hnd2 : ((enumerate m).map Prod.fst).Nodup :=
    (((enumerate_perm m).map Prod.fst).nodup_iff).2 hnd
  simp only [List.Nodup, List.pairwise_map] at hnd2
  exact (List.pairwise_and_iff.2 ⟨hle, hnd2⟩).imp fun h => lt_of_le_of_ne h.1 h.2

lemma enumerate_eq_of_perm {K V : Type} [LinearOrder K] {m₁ m₂ : List (K × V)}
    (hperm : m₁.Perm m₂) (hnd : (m₁.map Prod.fst).Nodup) :
    enumerate m₁ = enumerate m₂ := by
  have : IsAntisymm (K × V) fun a b => a.1 < b.1 :=
    ⟨fun _ _ h1 h2 => absurd h2 (lt_asymm h1)⟩
  refine List.eq_of_perm_of_sorted ?_ (enumerate_sorted_lt m₁ hnd)
    (enumerate_sorted_lt m₂ (((hperm.map Prod.fst).nodup_iff).1 hnd))
  exact (enumerate_perm m₁).trans (hperm.trans (enumerate_perm m₂).symm)

/-- C2: relationship maps and content-type maps are serialised in sorted key
order, so the emitted bytes are a function of the map contents alone: two
runs whose maps hold the same entries in any insertion/iteration order
produce identical part bytes.  (The creation timestamp, the claim's other
input, is fixed by hypothesis; every other part is a pure function of the
document model.) -/
theorem C2_sorted_enumeration_deterministic
    (rels₁ rels₂ : List (String × RelInfo)) (defs₁ defs₂ parts₁ parts₂ : List (String × String))
    (hndr : (rels₁.map Prod.fst).Nodup) (hr : rels₁.Perm rels₂)
    (hndd : (defs₁.map Prod.fst).Nodup) (hd : defs₁.Perm defs₂)
    (hndp : (parts₁.map Prod.fst).Nodup) (hp : parts₁.Perm parts₂) :
    writeRels rels₁ = writeRels rels₂ ∧
    writeContentTypes defs₁ parts₁ = writeContentTypes defs₂ parts₂ ∧
    ((enumerate rels₁).Sorted fun a b => a.1 ≤ b.1) ∧
    (enumerate rels₁).Perm rels₁ := by
  refine ⟨?_, ?_, enumerate_sorted rels₁, enumerate_perm rels₁⟩
  · rw [writeRels, writeRels, enumerate_eq_of_perm hr hndr]
  · rw [writeContentTypes, writeContentTypes, enumerate_eq_of_perm hd hndd,
      enumerate_eq_of_perm hp hndp]

/-- Witness for C2: two concrete two-entry relationship maps and content-type
maps holding the same entries in opposite orders serialise identically. -/
theorem C2_sorted_enumeration_deterministic_witness :
    writeRels [("rId2", ⟨"tU", "tgt2"⟩), ("rId1", ⟨"tV", "tgt1"⟩)] =
      writeRels [("rId1", ⟨"tV", "tgt1"⟩), ("rId2", ⟨"tU", "tgt2"⟩)] ∧
    writeContentTypes [("xml", "application/xml"), ("rels", "rels-ct")]
        [("/a.xml", "ct1"), ("/b.xml", "ct2")] =
      writeContentTypes [("rels", "rels-ct"), ("xml", "application/xml")]
        [("/b.xml", "ct2"), ("/a.xml", "ct1")] :=
  ⟨(C2_sorted_enumeration_deterministic
      [("rId2", ⟨"tU", "tgt2"⟩), ("rId1", ⟨"tV", "tgt1"⟩)]
      [("rId1", ⟨"tV", "tgt1"⟩), ("rId2", ⟨"tU", "tgt2"⟩)]
      [("xml", "application/xml"), ("rels", "rels-ct")]
      [("rels", "rels-ct"), ("xml", "application/xml")]
      [("/a.xml", "ct1"), ("/b.xml", "ct2")]
      [("/b.xml", "ct2"), ("/a.xml", "ct1")]
      (by decide) (by decide) (by decide) (by decide) (by decide) (by decide)).1,
    (C2_sorted_enumeration_deterministic
      [("rId2", ⟨"tU", "tgt2"⟩), ("rId1", ⟨"tV", "tgt1"⟩)]
      [("rId1", ⟨"tV", "tgt1"⟩), ("rId2", ⟨"tU", "tgt2"⟩)]
      [("xml", "application/xml"), ("rels", "rels-ct")]
      [("rels", "rels-ct"), ("xml", "application/xml")]
      [("/a.xml", "ct1"), ("/b.xml", "ct2")]
      [("/b.xml", "ct2"), ("/a.xml", "ct1")]
      (by decide) (by decide) (by decide) (by decide) (by decide) (by decide)).2.1⟩

/-! ## Shared strings (writer.go `SharedString` / `writeSharedStrings`)

The Writer keeps the parallel pair (`sharedStrings` slice, `sharedStringMap`
map); the map is embedded as an association list consulted through
`List.lookup`. -/

structure SSState where
  sharedStrings : List String
  sharedStringMap : List (String × Nat)
deriving DecidableEq, Repr

/-- `Writer.SharedString`: return the mapped index if present, otherwise
append the string and record its index. -/
def SharedString (st : SSState) (s : String) : Nat × SSState :=
  match st.sharedStringMap.lookup s with
  | some i => (i, st)
  | none =>
    (st.sharedStrings.length,
      ⟨st.sharedStrings ++ [s], (s, st.sharedStrings.length) :: st.sharedStringMap⟩)

/-- A whole assembly run's worth of interning calls, from the fresh state of
`NewWriter`. -/
def internAll (ws : List String) : SSState :=
  ws.foldl (fun st s => (SharedString st s).2) ⟨[], []⟩

/-- Observable shape of the `sharedStrings.xml` part: the `count` attribute,
the `uniqueCount` attribute and the `<si>` entry list, all taken from
`w.sharedStrings`. -/
structure SharedStringsPart where
  count : Nat
  uniqueCount : Nat
  entries : List String
deriving DecidableEq, Repr

def writeSharedStrings (st : SSState) : SharedStringsPart :=
  ⟨st.sharedStrings.length, st.sharedStrings.length, st.sharedStrings⟩

/-- Map/list coherence invariant maintained by `SharedString`. -/
def SSInv (st : SSState) : Prop :=
  st.sharedStrings.Nodup ∧
    ∀ x, (st.sharedStringMap.lookup x).isSome ↔ x ∈ st.sharedStrings

lemma SharedString_inv (st : SSState) (s : String) (h : SSInv st) :
    SSInv (SharedString st s).2 ∧
      ∀ x, x ∈ (SharedString st s).2.sharedStrings ↔ x ∈ st.sharedStrings ∨ x = s := by
  obtain ⟨hnd, hmem⟩ := h
  cases hl : st.sharedStringMap.lookup s with
  | some i =>
    have hs : s ∈ st.sharedStrings := (hmem s).1 (by rw [hl]; rfl)
    simp only [SharedString, hl]
    refine ⟨⟨hnd, hmem⟩, fun x => ⟨Or.inl, ?_⟩⟩
    rintro (hx | rfl)
    exacts [hx, hs]
  | none =>
    have hs : s ∉ st.sharedStrings := fun hx => by
      have h2 := (hmem s).2 hx
      rw [hl] at h2
      simp at h2
    simp only [SharedString, hl]
    refine ⟨⟨?_, fun x => ?_⟩, fun x => by simp⟩
    · simp [List.nodup_append, hnd, hs]
    · rcases eq_or_ne x s with rfl | hxs
      · simp [List.lookup]
      · have hb : (x == s) = false := by simp [hxs]
        simp [List.lookup, hb, hmem x, hxs]

/-- The second interning of the same string returns the first index and
leaves the state unchanged. -/
lemma SharedString_idem (st : SSState) (s : String) :
    SharedString (SharedString st s).2 s = ((SharedString st s).1, (SharedString st s).2) := by
  cases hl : st.sharedStringMap.lookup s with
  | some i => simp [SharedString, hl]
  | none => simp [SharedString, hl, List.lookup]

lemma internAll_aux (ws : List String) :
    ∀ st : SSState, SSInv st →
      SSInv (ws.foldl (fun st s => (SharedString st s).2) st) ∧
      ∀ x, x ∈ (ws.foldl (fun st s => (SharedString st s).2) st).sharedStrings ↔
        x ∈ st.sharedStrings ∨ x ∈ ws := by
  induction ws with
  | nil =>
    intro st h
    simp only [List.foldl_nil]
    exact ⟨h, fun x => by simp⟩
  | cons w ws ih =>
    intro st h
    obtain ⟨h1, h2⟩ := SharedString_inv st w h
    obtain ⟨h3, h4⟩ := ih (SharedString st w).2 h1
    refine ⟨h3, fun x => ?_⟩
    rw [List.foldl_cons] at *
    rw [h4 x]
    rw [h2 x]
    simp only [List.mem_cons]
    tauto

lemma internAll_inv (ws : List String) :
    SSInv (internAll ws) ∧ ∀ x, x ∈ (internAll ws).sharedStrings ↔ x ∈ ws := by
  obtain ⟨h1, h2⟩ := internAll_aux ws ⟨[], []⟩ ⟨List.nodup_nil, fun x => by simp [List.lookup]⟩
  exact ⟨h1, fun x => by simpa using h2 x⟩

/-- C5: interning the same string twice yields the same index and state; the
table built by any sequence of `SharedString` calls holds exactly one entry
per distinct interned string; and the emitted shared-strings part carries
`count` and `uniqueCount` attributes both equal to the table length, which is
the number of distinct strings interned. -/
theorem C5_shared_string_interning (ws : List String) (s : String) :
    (SharedString (SharedString (internAll ws) s).2 s).1 = (SharedString (internAll ws) s).1 ∧
    (SharedString (SharedString (internAll ws) s).2 s).2 = (SharedString (internAll ws) s).2 ∧
    (internAll ws).sharedStrings.Nodup ∧
    (∀ x, x ∈ (internAll ws).sharedStrings ↔ x ∈ ws) ∧
    (writeSharedStrings (internAll ws)).count = (internAll ws).sharedStrings.length ∧
    (writeSharedStrings (internAll ws)).uniqueCount = (internAll ws).sharedStrings.length ∧
    (writeSharedStrings (internAll ws)).entries.length = ws.toFinset.card := by
  obtain ⟨⟨hnd, _⟩, hmem⟩ := internAll_inv ws
  refine ⟨?_, ?_, hnd, hmem, rfl, rfl, ?_⟩
  · rw [SharedString_idem]
  · rw [SharedString_idem]
  · have hfin : (internAll ws).sharedStrings.toFinset = ws.toFinset := by
      ext x
      simp [hmem x]
    calc (writeSharedStrings (internAll ws)).entries.length
        = (internAll ws).sharedStrings.toFinset.card := (List.toFinset_card_of_nodup hnd).symm
      _ = ws.toFinset.card := by rw [hfin]

/-- Witness for C5 at a concrete call sequence with a repeated string. -/
theorem C5_shared_string_interning_witness :
    (internAll ["a", "b", "a"]).sharedStrings.Nodup ∧
    (writeSharedStrings (internAll ["a", "b", "a"])).entries.length =
      (["a", "b", "a"] : List String).toFinset.card :=
  ⟨(C5_shared_string_interning ["a", "b", "a"] "a").2.2.1,
    (C5_shared_string_interning ["a", "b", "a"] "a").2.2.2.2.2.2⟩

/-! ## Styles and fonts (cell.go / media.go `Font` / writer.go)

`Font.Size` is `float64` in the source; the writer only compares it against
zero and for whole-record equality, so it is embedded as `ℚ`.  Underline and
alignment enums are string-valued in the source and stay strings here. -/

structure Font where
  size : ℚ
  bold : Bool
  italic : Bool
  underline : String
  strikethrough : Bool
deriving DecidableEq, Repr

/-- `Font.IsDefault`: every field at its zero value. -/
def Font.IsDefault (f : Font) : Bool :=
  f.size == 0 && !f.bold && !f.italic && f.underline == "" && !f.strikethrough

structure Alignment where
  horizontal : String
  vertical : String
deriving DecidableEq, Repr

def Alignment.Empty (a : Alignment) : Bool :=
  a.horizontal == "" && a.vertical == ""

structure XF where
  alignment : Alignment
  font : Font
deriving DecidableEq, Repr

def XF.Empty (xf : XF) : Bool :=
  xf.alignment.Empty && xf.font.IsDefault

/-- `Writer.FindXF`: first index whose record is structurally equal, `none`
standing for Go's `-1`. -/
def FindXF (xfs : List XF) (xf : XF) : Option Nat :=
  xfs.findIdx? (· == xf)

/-- `Writer.FindFont`. -/
def FindFont (fonts : List Font) (f : Font) : Option Nat :=
  fonts.findIdx? (· == f)

/-- The interning step in `writeSheet`: look the cell's `XF` up, appending it
when absent; the returned index is the table slot. -/
def internXF (xfs : List XF) (xf : XF) : Nat × List XF :=
  match FindXF xfs xf with
  | some i => (i, xfs)
  | none => (xfs.length, xfs ++ [xf])

/-- Per-cell style handling of `writeSheet`, over the style records of the
visited cells in order: an empty `XF` emits no `s` attribute; a non-empty one
is interned and emits `s = index + 1`.  Returns the attribute list and the
final `w.xfs` table. -/
def processXFs : List XF → List XF → List (Option Nat) × List XF
  | xfs, [] => ([], xfs)
  | xfs, c :: cs =>
    if c.Empty then
      let r := processXFs xfs cs
      (none :: r.1, r.2)
    else
      let p := internXF xfs c
      let r := processXFs p.2 cs
      (some (p.1 + 1) :: r.1, r.2)

/-- The font-collection pass at the top of `writeStyles`: walk `w.xfs`,
appending each non-default font not already present. -/
def collectFonts (xfs : List XF) : List Font :=
  xfs.foldl
    (fun fonts xf =>
      if !xf.font.IsDefault && (FindFont fonts xf.font).isNone then fonts ++ [xf.font]
      else fonts)
    []

/-- The `fontId` attribute `writeStyles` emits for one interned `XF`:
0 for the default font, otherwise the font-table index plus 1 (0 again if the
lookup were ever to fail). -/
def xfFontId (fonts : List Font) (xf : XF) : Nat :=
  if xf.font.IsDefault then 0
  else
    match FindFont fonts xf.font with
    | some i => i + 1
    | none => 0

def defaultFont : Font := ⟨0, false, false, "", false⟩

def defaultXF : XF := ⟨⟨"", ""⟩, defaultFont⟩

/-- The font table as emitted: the fixed default font record first (index 0),
then the collected fonts.  (In the XML the index-0 record is the fixed
Calibri-11 element; it is represented by the zero-valued record here.) -/
def emittedFonts (xfs : List XF) : List Font := defaultFont :: collectFonts xfs

/-- The `cellXfs` table as emitted: the fixed default `xf` element first
(index 0), then the interned records. -/
def emittedCellXfs (xfs : List XF) : List XF := defaultXF :: xfs

lemma findIdx?_append_some {α : Type} {p : α → Bool} {l₁ : List α} (l₂ : List α) {i : Nat}
    (h : l₁.findIdx? p = some i) : (l₁ ++ l₂).findIdx? p = some i := by
  rw [List.findIdx?_append, h]
  rfl

lemma findIdx?_append_new {α : Type} {p : α → Bool} {l : List α} {x : α}
    (h : l.findIdx? p = none) (hx : p x = true) :
    (l ++ [x]).findIdx? p = some l.length := by
  rw [List.findIdx?_append, h]
  simp [List.findIdx?_cons, hx]

lemma internXF_found (xfs : List XF) (xf : XF) :
    FindXF (internXF xfs xf).2 xf = some (internXF xfs xf).1 := by
  cases h : FindXF xfs xf with
  | some i => simp [internXF, h]
  | none =>
    simp only [internXF, h]
    exact findIdx?_append_new h (by simp)

lemma processXFs_grows (cs : List XF) : ∀ xfs : List XF,
    ∃ ext, (processXFs xfs cs).2 = xfs ++ ext := by
  induction cs with
  | nil => intro xfs; exact ⟨[], by simp [processXFs]⟩
  | cons c cs ih =>
    intro xfs
    by_cases hc : c.Empty
    · obtain ⟨ext, hext⟩ := ih xfs
      exact ⟨ext, by simp [processXFs, hc, hext]⟩
    · obtain ⟨ext, hext⟩ := ih (internXF xfs c).2
      cases h : FindXF xfs c with
      | some i => exact ⟨ext, by simpa [processXFs, hc, internXF, h] using hext⟩
      | none =>
        refine ⟨[c] ++ ext, ?_⟩
        have : (internXF xfs c).2 = xfs ++ [c] := by simp [internXF, h]
        simp only [processXFs, hc, if_false, Bool.false_eq_true]
        rw [hext, this, List.append_assoc]

lemma FindXF_mono {xfs : List XF} {xf : XF} {i : Nat} (ext : List XF)
    (h : FindXF xfs xf = some i) : FindXF (xfs ++ ext) xf = some i :=
  findIdx?_append_some ext h

/-- Table membership after processing: everything in the final table is
either an initial entry or a non-empty visited record. -/
lemma processXFs_mem (cs : List XF) : ∀ (xfs : List XF) (x : XF),
    x ∈ (processXFs xfs cs).2 → x ∈ xfs ∨ (x ∈ cs ∧ x.Empty = false) := by
  induction cs with
  | nil => intro xfs x hx; simp only [processXFs] at hx; exact Or.inl hx
  | cons c cs ih =>
    intro xfs x hx
    by_cases hc : c.Empty
    · simp only [processXFs, hc, if_true] at hx
      rcases ih xfs x hx with h | h
      · exact Or.inl h
      · exact Or.inr ⟨by simp [h.1], h.2⟩
    · simp only [processXFs, hc, if_false, Bool.false_eq_true] at hx
      rcases ih (internXF xfs c).2 x hx with h | h
      · cases hf : FindXF xfs c with
        | some i =>
          rw [internXF, hf] at h
          exact Or.inl h
        | none =>
          rw [internXF, hf] at h
          simp only [List.mem_append, List.mem_singleton] at h
          rcases h with h | rfl
          · exact Or.inl h
          · exact Or.inr ⟨by simp, by simpa using hc⟩
      · exact Or.inr ⟨by simp [h.1], h.2⟩

/-- Relation between a visited cell's style record and the `s` attribute the
writer emits for it, relative to the (final) `w.xfs` table `T`: empty records
emit no attribute, non-empty records emit their table index plus 1. -/
def AttrOK (T : List XF) (c : XF) (a : Option Nat) : Prop :=
  (c.Empty = true → a = none) ∧
    (c.Empty = false → ∃ j, FindXF T c = some j ∧ a = some (j + 1))

/-- Every emitted `s` attribute equals the index of the cell's record in the
final table plus 1 (indices are stable because the table is append-only). -/
lemma processXFs_spec (cs : List XF) : ∀ xfs : List XF,
    List.Forall₂ (AttrOK (processXFs xfs cs).2) cs (processXFs xfs cs).1 := by
  induction cs with
  | nil => intro xfs; exact List.Forall₂.nil
  | cons c cs ih =>
    intro xfs
    by_cases hc : c.Empty
    · simp only [processXFs, hc, if_true]
      refine List.Forall₂.cons ⟨fun _ => rfl, fun h => by rw [hc] at h; cases h⟩ (ih xfs)
    · simp only [processXFs, hc, if_false, Bool.false_eq_true]
      refine List.Forall₂.cons ?_ (ih (internXF xfs c).2)
      refine ⟨fun h => absurd h (by simpa using hc), fun _ => ?_⟩
      obtain ⟨ext, hext⟩ := processXFs_grows cs (internXF xfs c).2
      exact ⟨(internXF xfs c).1, by rw [hext]; exact FindXF_mono ext (internXF_found xfs c),
        rfl⟩

def collectStep (fonts : List Font) (xf : XF) : List Font :=
  if !xf.font.IsDefault && (FindFont fonts xf.font).isNone then fonts ++ [xf.font]
  else fonts

lemma collectFonts_eq_foldl (xfs : List XF) : collectFonts xfs = xfs.foldl collectStep [] :=
  rfl

lemma FindFont_mono {fonts : List Font} {f : Font} {i : Nat} (ext : List Font)
    (h : FindFont fonts f = some i) : FindFont (fonts ++ ext) f = some i :=
  findIdx?_append_some ext h

lemma FindFont_append_new {fonts : List Font} {f : Font} (h : FindFont fonts f = none) :
    FindFont (fonts ++ [f]) f = some fonts.length :=
  findIdx?_append_new h (by simp)

lemma collect_aux (xfs : List XF) : ∀ fonts₀ : List Font,
    (∀ f ∈ fonts₀, f.IsDefault = false) →
    (∀ f ∈ xfs.foldl collectStep fonts₀, f.IsDefault = false) ∧
    (∃ ext, xfs.foldl collectStep fonts₀ = fonts₀ ++ ext) ∧
    (∀ xf ∈ xfs, xf.font.IsDefault = false →
      (FindFont (xfs.foldl collectStep fonts₀) xf.font).isSome = true) := by
  induction xfs with
  | nil =>
    intro fonts₀ h0
    exact ⟨fun f hf => h0 f (by simpa using hf), ⟨[], by simp⟩, fun xf hxf => by simp at hxf⟩
  | cons xf xfs ih =>
    intro fonts₀ h0
    have h1 : ∀ f ∈ collectStep fonts₀ xf, f.IsDefault = false := by
      intro f hf
      rw [collectStep] at hf
      split at hf
      · rcases List.mem_append.1 hf with h | h
        · exact h0 f h
        · rcases List.mem_singleton.1 h with rfl
          rename_i hcond
          rw [Bool.and_eq_true] at hcond
          simpa using hcond.1
      · exact h0 f hf
    obtain ⟨ha, ⟨ext, hext⟩, hb⟩ := ih (collectStep fonts₀ xf) h1
    have hstep : ∃ ext₀, collectStep fonts₀ xf = fonts₀ ++ ext₀ := by
      rw [collectStep]
      split
      · exact ⟨[xf.font], rfl⟩
      · exact ⟨[], by simp⟩
    refine ⟨by simpa using ha, ?_, ?_⟩
    · obtain ⟨ext₀, hext₀⟩ := hstep
      refine ⟨ext₀ ++ ext, ?_⟩
      simp only [List.foldl_cons]
      rw [hext, hext₀, List.append_assoc]
    · intro y hy hnd
      rcases List.mem_cons.1 hy with rfl | hmem
      · -- the head font is present right after its own step, hence in the result
        have hpresent : (FindFont (collectStep fonts₀ y) y.font).isSome = true := by
          cases hf : FindFont fonts₀ y.font with
          | some i =>
            have hsplit : collectStep fonts₀ y = fonts₀ ∨
                collectStep fonts₀ y = fonts₀ ++ [y.font] := by
              rw [collectStep]
              split
              · exact Or.inr rfl
              · exact Or.inl rfl
            rcases hsplit with h | h
            · rw [h, hf]; rfl
            · rw [h, FindFont_mono [y.font] hf]; rfl
          | none =>
            have hcs : collectStep fonts₀ y = fonts₀ ++ [y.font] := by
              simp [collectStep, hnd, hf]
            rw [hcs, FindFont_append_new hf]
            rfl
        simp only [List.foldl_cons]
        cases hf2 : FindFont (collectStep fonts₀ y) y.font with
        | none => rw [hf2] at hpresent; cases hpresent
        | some i =>
          rw [hext, FindFont_mono ext hf2]
          rfl
      · simpa using hb y hmem hnd

/-- Specialisation of `collect_aux` to the pass `writeStyles` actually runs
(accumulator starts empty). -/
lemma collectFonts_spec (xfs : List XF) :
    (∀ f ∈ collectFonts xfs, f.IsDefault = false) ∧
    ∀ xf ∈ xfs, xf.font.IsDefault = false →
      (FindFont (collectFonts xfs) xf.font).isSome = true := by
  obtain ⟨ha, _, hb⟩ := collect_aux xfs [] (fun f hf => by simp at hf)
  exact ⟨ha, hb⟩

/-- C6: starting from a fresh Writer, the default (all-zero) cell format and
font never enter the interning tables; every emitted `s` attribute is the
cell's final xf-table index plus 1 (`AttrOK`); every interned non-default
font is found in the collected font table and its `fontId` is that index
plus 1; and index 0 of both emitted tables is the implicit default entry. -/
theorem C6_default_style_font_index (cells : List XF) :
    (∀ xf ∈ (processXFs [] cells).2, xf.Empty = false) ∧
    defaultXF ∉ (processXFs [] cells).2 ∧
    (∀ f ∈ collectFonts (processXFs [] cells).2, f.IsDefault = false) ∧
    defaultFont ∉ collectFonts (processXFs [] cells).2 ∧
    List.Forall₂ (AttrOK (processXFs [] cells).2) cells (processXFs [] cells).1 ∧
    (∀ xf ∈ (processXFs [] cells).2, xf.font.IsDefault = false →
      ∃ j, FindFont (collectFonts (processXFs [] cells).2) xf.font = some j ∧
        xfFontId (collectFonts (processXFs [] cells).2) xf = j + 1) ∧
    (emittedFonts (processXFs [] cells).2).get? 0 = some defaultFont ∧
    (emittedCellXfs (processXFs [] cells).2).get? 0 = some defaultXF := by
  have hne : ∀ xf ∈ (processXFs [] cells).2, xf.Empty = false := by
    intro xf hxf
    rcases processXFs_mem cells [] xf hxf with h | h
    · simp at h
    · exact h.2
  obtain ⟨hcd, hcfind⟩ := collectFonts_spec (processXFs [] cells).2
  refine ⟨hne, ?_, hcd, ?_, processXFs_spec cells [], ?_, rfl, rfl⟩
  · intro hmem
    have h2 := hne defaultXF hmem
    simp [XF.Empty, Alignment.Empty, defaultXF, defaultFont, Font.IsDefault] at h2
  · intro hmem
    have h2 := hcd defaultFont hmem
    simp [defaultFont, Font.IsDefault] at h2
  · intro xf hxf hnd
    have h2 := hcfind xf hxf hnd
    cases hf : FindFont (collectFonts (processXFs [] cells).2) xf.font with
    | none => rw [hf] at h2; cases h2
    | some j =>
      refine ⟨j, rfl, ?_⟩
      simp only [xfFontId, hnd, hf]
      rfl

/-- Witness for C6 on a concrete two-cell sheet: one bold cell, one default
cell. -/
theorem C6_default_style_font_index_witness :
    defaultXF ∉ (processXFs []
      [⟨⟨"", ""⟩, ⟨0, true, false, "", false⟩⟩, defaultXF]).2 ∧
    (emittedFonts (processXFs []
      [⟨⟨"", ""⟩, ⟨0, true, false, "", false⟩⟩, defaultXF]).2).get? 0 = some defaultFont :=
  ⟨(C6_default_style_font_index
      [⟨⟨"", ""⟩, ⟨0, true, false, "", false⟩⟩, defaultXF]).2.1,
    (C6_default_style_font_index
      [⟨⟨"", ""⟩, ⟨0, true, false, "", false⟩⟩, defaultXF]).2.2.2.2.2.2.1⟩

/-! ## Workbook sheet management (part_001)

The workbook holds the ordered sheet list and the name map used for duplicate
detection; only the names matter to the claims, so a sheet is represented by
its name and the map by its key list.  In the source, `AddSheet` performs
both checks before any mutation, so a failing call returns with the workbook
untouched; the embedding returns only the error in that case, mirroring
exactly that. -/

inductive NameErr
  | empty
  | tooLong
  | quote
  | badChar
deriving DecidableEq, Repr

inductive AddErr
  | duplicate
  | invalid (e : NameErr)
deriving DecidableEq, Repr

def quoteChar : Char := Char.ofNat 39

def backslashChar : Char := Char.ofNat 92

/-- The excluded character set `:\/?*[]`. -/
def sheetNameBadChars : List Char := [':', backslashChar, '/', '?', '*', '[', ']']

/-- `validateSheetName` from part_001: 1–31 runes, no leading or trailing
single quote, none of the excluded characters. -/
def validateSheetName (s : String) : Option NameErr :=
  let cs := s.toList
  if cs.length = 0 then some .empty
  else if cs.length > 31 then some .tooLong
  else if cs.head? = some quoteChar ∨ cs.getLast? = some quoteChar then some .quote
  else if cs.any (fun c => decide (c ∈ sheetNameBadChars)) then some .badChar
  else none

structure Workbook where
  sheets : List String
  sheetMap : List String
deriving DecidableEq, Repr

def NewWorkbook : Workbook := ⟨[], []⟩

/-- `Workbook.AddSheet` from part_001: duplicate check against the name map
first, then name validation, then append to both the sheet list and the map. -/
def AddSheet (wb : Workbook) (name : String) : Except AddErr Workbook :=
  if name ∈ wb.sheetMap then .error .duplicate
  else
    match validateSheetName name with
    | some e => .error (.invalid e)
    | none => .ok ⟨wb.sheets ++ [name], name :: wb.sheetMap⟩

/-- The validator accepts exactly the names the spec describes. -/
lemma validateSheetName_none_iff (s : String) :
    validateSheetName s = none ↔
      (1 ≤ s.toList.length ∧ s.toList.length ≤ 31 ∧
        s.toList.head? ≠ some quoteChar ∧ s.toList.getLast? ≠ some quoteChar ∧
        ∀ c ∈ s.toList, c ∉ sheetNameBadChars) := by
  rw [validateSheetName]
  split_ifs with h1 h2 h3 h4
  · simp only [false_iff]
    rintro ⟨ha, _⟩
    omega
  · simp only [false_iff]
    rintro ⟨_, hb, _⟩
    omega
  · simp only [false_iff]
    rintro ⟨_, _, hc, hd, _⟩
    rcases h3 with h | h
    exacts [hc h, hd h]
  · simp only [false_iff]
    rintro ⟨_, _, _, _, he⟩
    rw [List.any_eq_true] at h4
    obtain ⟨c, hcmem, hcbad⟩ := h4
    exact he c hcmem (by simpa using hcbad)
  · simp only [true_iff]
    refine ⟨by omega, by omega, ?_, ?_, ?_⟩
    · intro h; exact h3 (Or.inl h)
    · intro h; exact h3 (Or.inr h)
    · intro c hcmem hcbad
      exact h4 (List.any_eq_true.2 ⟨c, hcmem, by simpa using hcbad⟩)

/-- C8: `AddSheet` fails with the duplicate error exactly on names already in
the map, fails with the validation error on invalid fresh names, succeeds on
valid fresh names by appending to the sheet list and name map, and a name
that succeeded once always fails with the duplicate error afterwards; failed
calls return only the error, the workbook value being untouched by
construction (the source mutates only after both checks pass). -/
theorem C8_addSheet_unique_names (wb : Workbook) (name : String) :
    (name ∈ wb.sheetMap → AddSheet wb name = .error .duplicate) ∧
    (∀ e, name ∉ wb.sheetMap → validateSheetName name = some e →
      AddSheet wb name = .error (.invalid e)) ∧
    (name ∉ wb.sheetMap → validateSheetName name = none →
      AddSheet wb name = .ok ⟨wb.sheets ++ [name], name :: wb.sheetMap⟩) ∧
    (∀ wb2, AddSheet wb name = .ok wb2 → AddSheet wb2 name = .error .duplicate) ∧
    (validateSheetName name = none ↔
      (1 ≤ name.toList.length ∧ name.toList.length ≤ 31 ∧
        name.toList.head? ≠ some quoteChar ∧ name.toList.getLast? ≠ some quoteChar ∧
        ∀ c ∈ name.toList, c ∉ sheetNameBadChars)) := by
  refine ⟨?_, ?_, ?_, ?_, validateSheetName_none_iff name⟩
  · intro h
    rw [AddSheet, if_pos h]
  · intro e hnm hv
    rw [AddSheet, if_neg hnm, hv]
  · intro hnm hv
    rw [AddSheet, if_neg hnm, hv]
  · intro wb2 hok
    by_cases hnm : name ∈ wb.sheetMap
    · rw [AddSheet, if_pos hnm] at hok
      cases hok
    · cases hv : validateSheetName name with
      | some e =>
        rw [AddSheet, if_neg hnm, hv] at hok
        cases hok
      | none =>
        rw [AddSheet, if_neg hnm, hv] at hok
        have hwb2 : wb2 = ⟨wb.sheets ++ [name], name :: wb.sheetMap⟩ :=
          (Except.ok.inj hok).symm
        subst hwb2
        rw [AddSheet, if_pos (by simp)]

/-- Witness for C8: a first add succeeds, the repeat fails with the duplicate
error, and a name containing `:` fails with the validation error. -/
theorem C8_addSheet_unique_names_witness :
    AddSheet NewWorkbook "Sheet1" = .ok ⟨["Sheet1"], ["Sheet1"]⟩ ∧
    AddSheet ⟨["Sheet1"], ["Sheet1"]⟩ "Sheet1" = .error .duplicate ∧
    AddSheet NewWorkbook "a:b" = .error (.invalid .badChar) :=
  ⟨(C8_addSheet_unique_names NewWorkbook "Sheet1").2.2.1 (by decide) (by decide),
    (C8_addSheet_unique_names ⟨["Sheet1"], ["Sheet1"]⟩ "Sheet1").1 (by decide),
    (C8_addSheet_unique_names NewWorkbook "a:b").2.1 .badChar (by decide) (by decide)⟩

/-! ## Content-addressed media store (media.go / writer.go)

Image payloads are byte lists.  `BlobHash` is `hash/fnv` `New64` (FNV-1,
64-bit); the name is the `%.16x` rendering of the hash plus the normalised
extension.  `strings.ToLower` is modelled character-wise (extensions are
ASCII). -/

def fnvPrime : Nat := 1099511628211

def fnvOffset : Nat := 14695981039346656037

/-- `BlobHash` (media.go): FNV-1 over the bytes, 64-bit. -/
def fnv64 (bs : List Nat) : Nat :=
  bs.foldl (fun h b => ((h * fnvPrime) % 2 ^ 64) ^^^ (b % 256)) fnvOffset

def toHexDigit (n : Nat) : Char :=
  if n < 10 then Char.ofNat (48 + n) else Char.ofNat (87 + n)

/-- Go's `%.16x` formatting of the 64-bit hash: 16 lowercase hex digits. -/
def hex16 (n : Nat) : String :=
  ⟨(List.range 16).map fun i => toHexDigit (n / 16 ^ (15 - i) % 16)⟩

def lowerString (s : String) : String := ⟨s.toList.map Char.toLower⟩

/-- Extension normalisation in `writeSheet`: lowercase, then `.jpg` → `.jpeg`. -/
def normalizeExt (ext : String) : String :=
  let e := lowerString ext
  if e = ".jpg" then ".jpeg" else e

/-- The content-addressed media file name `fmt.Sprintf("%.16x%s", BlobHash(blob), ext)`. -/
def mediaName (ext : String) (blob : List Nat) : String :=
  hex16 (fnv64 blob) ++ ext

structure MediaInfo where
  name : String
  blob : List Nat
  iid : Nat
  rid : String
deriving DecidableEq, Repr

structure MediaState where
  media : List MediaInfo
  mediaMap : List (String × MediaInfo)
  lastRichDataId : Nat
deriving DecidableEq, Repr

def emptyMedia : MediaState := ⟨[], [], 0⟩

inductive PicErr
  | missing
  | unsupported
  | empty
deriving DecidableEq, Repr

/-- Picture-cell handling in `writeSheet` (writer.go): normalise the
extension, reject unsupported ones, look the content-addressed name up in
`mediaMap` (allocating the next 0-based internal id and rich-data
relationship id on a miss), reject an empty stored payload, and return the
`vm` attribute `internal id + 1`.  (In the source the empty-payload check
runs after the table insertion; since `Write` aborts on the error and the
Writer is session-scoped, discarding the post-insertion state on the error
path is unobservable.) -/
def registerPicture (st : MediaState) (extRaw : String) (blob : List Nat) :
    Except PicErr (Nat × MediaState) :=
  let ext := normalizeExt extRaw
  if ext = ".jpeg" ∨ ext = ".png" then
    let n := mediaName ext blob
    match st.mediaMap.lookup n with
    | some info =>
      if info.blob.length = 0 then .error .empty else .ok (info.iid + 1, st)
    | none =>
      let info : MediaInfo :=
        ⟨n, blob, st.media.length, "rId" ++ toString (st.lastRichDataId + 1)⟩
      if blob.length = 0 then .error .empty
      else .ok (info.iid + 1,
        ⟨st.media ++ [info], (n, info) :: st.mediaMap, st.lastRichDataId + 1⟩)
  else .error .unsupported

/-- A sheet walk's worth of picture registrations, stopping at the first
error. -/
def runPictures : MediaState → List (String × List Nat) → Except PicErr (List Nat × MediaState)
  | st, [] => .ok ([], st)
  | st, (e, b) :: rest =>
    match registerPicture st e b with
    | .error err => .error err
    | .ok (vm, st2) =>
      match runPictures st2 rest with
      | .error err => .error err
      | .ok (vms, stf) => .ok (vm :: vms, stf)

def cellMediaName (c : String × List Nat) : String :=
  mediaName (normalizeExt c.1) c.2

/-- `writeMedia` (writer.go): one blob written per media record, under its
content-addressed path. -/
def writeMedia (st : MediaState) : List (String × List Nat) :=
  st.media.map fun m => ("/xl/media/" ++ m.name, m.blob)

/-- Coherence of the media list and its name map. -/
def MInv (st : MediaState) : Prop :=
  (∀ n info, st.mediaMap.lookup n = some info → info ∈ st.media ∧ info.name = n) ∧
  (∀ info ∈ st.media, st.mediaMap.lookup info.name = some info) ∧
  (st.media.map MediaInfo.name).Nodup ∧
  ∀ i (h : i < st.media.length), (st.media.get ⟨i, h⟩).iid = i

lemma lookup_cons_self {β : Type} (k : String) (v : β) (m : List (String × β)) :
    List.lookup k ((k, v) :: m) = some v := by
  simp [List.lookup]

lemma lookup_cons_ne {β : Type} {k k2 : String} (v : β) (m : List (String × β)) (h : k ≠ k2) :
    List.lookup k ((k2, v) :: m) = List.lookup k m := by
  have hb : (k == k2) = false := by simpa using h
  simp [List.lookup, hb]

lemma registerPicture_ok (st : MediaState) (e : String) (b : List Nat) (vm : Nat)
    (st2 : MediaState) (h : registerPicture st e b = .ok (vm, st2)) (hinv : MInv st) :
    MInv st2 ∧
    (∃ ext, st2.media = st.media ++ ext) ∧
    (∀ n info, st.mediaMap.lookup n = some info → st2.mediaMap.lookup n = some info) ∧
    ∃ info, st2.mediaMap.lookup (cellMediaName (e, b)) = some info ∧ vm = info.iid + 1 := by
  obtain ⟨hl, hm, hnd, hiid⟩ := hinv
  rw [registerPicture] at h
  by_cases hext : normalizeExt e = ".jpeg" ∨ normalizeExt e = ".png"
  · rw [if_pos hext] at h
    dsimp only at h
    cases hlook : st.mediaMap.lookup (mediaName (normalizeExt e) b) with
    | some info =>
      rw [hlook] at h
      dsimp only at h
      by_cases hb : info.blob.length = 0
      · rw [if_pos hb] at h; cases h
      · rw [if_neg hb] at h
        obtain ⟨h1, h2⟩ := Prod.mk.injEq _ _ _ _ ▸ Except.ok.inj h
        subst h2
        exact ⟨⟨hl, hm, hnd, hiid⟩, ⟨[], by simp⟩, fun n i hn => hn,
          ⟨info, hlook, h1.symm⟩⟩
    | none =>
      rw [hlook] at h
      dsimp only at h
      by_cases hb : b.length = 0
      · rw [if_pos hb] at h; cases h
      · rw [if_neg hb] at h
        obtain ⟨h1, h2⟩ := Prod.mk.injEq _ _ _ _ ▸ Except.ok.inj h
        set nm := mediaName (normalizeExt e) b with hnm
        set newInfo : MediaInfo :=
          ⟨nm, b, st.media.length, "rId" ++ toString (st.lastRichDataId + 1)⟩ with hni
        have hnotmem : nm ∉ st.media.map MediaInfo.name := by
          intro hmem
          obtain ⟨info, hinfo, hname⟩ := List.mem_map.1 hmem
          have := hm info hinfo
          rw [hname, hlook] at this
          cases this
        subst h2
        refine ⟨⟨?_, ?_, ?_, ?_⟩, ⟨[newInfo], rfl⟩, ?_, ?_⟩
        · intro n info hn
          by_cases hne : n = nm
          · subst hne
            rw [lookup_cons_self] at hn
            obtain rfl := Option.some.inj hn
            exact ⟨by simp, rfl⟩
          · rw [lookup_cons_ne _ _ hne] at hn
            obtain ⟨ha, hb2⟩ := hl n info hn
            exact ⟨by simp [ha], hb2⟩
        · intro info hinfo
          rcases List.mem_append.1 hinfo with hold | hnew
          · have hlold := hm info hold
            have hne : info.name ≠ nm := by
              intro heq
              rw [heq, hlook] at hlold
              cases hlold
            rw [lookup_cons_ne _ _ hne]
            exact hlold
          · rcases List.mem_singleton.1 hnew with rfl
            exact lookup_cons_self _ _ _
        · rw [List.map_append]
          simp only [List.map_cons, List.map_nil]
          rw [List.nodup_append]
          exact ⟨hnd, List.nodup_singleton _, by simpa [hni] using hnotmem⟩
        · intro i hilt
          rw [List.length_append, List.length_cons, List.length_nil] at hilt
          by_cases hi : i < st.media.length
          · rw [List.get_eq_getElem, List.getElem_append_left hi]
            exact hiid i hi
          · have hieq : i = st.media.length := by omega
            subst hieq
            rw [List.get_eq_getElem]
            simp only [List.getElem_concat_length]
        · intro n info hn
          have hne : n ≠ nm := by
            intro heq
            rw [heq, hlook] at hn
            cases hn
          rw [lookup_cons_ne _ _ hne]
          exact hn
        · refine ⟨newInfo, ?_, h1.symm⟩
          exact lookup_cons_self _ _ _
  · rw [if_neg hext] at h
    cases h

lemma runPictures_spec (cells : List (String × List Nat)) : ∀ (st : MediaState), MInv st →
    ∀ vms stf, runPictures st cells = .ok (vms, stf) →
      MInv stf ∧
      (∃ ext, stf.media = st.media ++ ext) ∧
      (∀ n info, st.mediaMap.lookup n = some info → stf.mediaMap.lookup n = some info) ∧
      List.Forall₂ (fun c vm => ∃ info,
        stf.mediaMap.lookup (cellMediaName c) = some info ∧ vm = info.iid + 1) cells vms := by
  induction cells with
  | nil =>
    intro st hinv vms stf h
    simp only [runPictures] at h
    obtain ⟨h1, h2⟩ := Prod.mk.injEq _ _ _ _ ▸ Except.ok.inj h
    subst h2
    subst h1
    exact ⟨hinv, ⟨[], by simp⟩, fun n i hn => hn, List.Forall₂.nil⟩
  | cons c cells ih =>
    intro st hinv vms stf h
    obtain ⟨e, b⟩ := c
    simp only [runPictures] at h
    cases hreg : registerPicture st e b with
    | error err => rw [hreg] at h; cases h
    | ok p =>
      obtain ⟨vm, st2⟩ := p
      rw [hreg] at h
      dsimp only at h
      cases hrun : runPictures st2 cells with
      | error err => rw [hrun] at h; cases h
      | ok q =>
        obtain ⟨vms2, stf2⟩ := q
        rw [hrun] at h
        obtain ⟨h1, h2⟩ := Prod.mk.injEq _ _ _ _ ▸ Except.ok.inj h
        subst h2
        subst h1
        obtain ⟨hinv2, ⟨ext2, hext2⟩, hmono2, ⟨info, hlook2, hvm⟩⟩ :=
          registerPicture_ok st e b vm st2 hreg hinv
        obtain ⟨hinvf, ⟨extf, hextf⟩, hmonof, hfar⟩ := ih st2 hinv2 vms2 stf2 hrun
        refine ⟨hinvf, ⟨ext2 ++ extf, by rw [hextf, hext2, List.append_assoc]⟩,
          fun n i hn => hmonof n i (hmono2 n i hn), ?_⟩
        exact List.Forall₂.cons ⟨info, hmonof _ info hlook2, hvm⟩ hfar

/-- C7: over any successful run of picture registrations from a fresh
Writer, media names are pairwise distinct (so byte-identical payloads with
the same normalised extension share exactly one media record), internal ids
are assigned 0-based in order of first appearance (the id of the k-th record
is k), every cell's `vm` attribute is the internal id of its record plus 1
(hence equal for cells with equal payload and extension), and `writeMedia`
writes exactly one blob per media record. -/
theorem C7_media_dedup (cells : List (String × List Nat)) (vms : List Nat) (stf : MediaState)
    (h : runPictures emptyMedia cells = .ok (vms, stf)) :
    (stf.media.map MediaInfo.name).Nodup ∧
    (∀ i (hi : i < stf.media.length), (stf.media.get ⟨i, hi⟩).iid = i) ∧
    List.Forall₂ (fun c vm => ∃ info,
      stf.mediaMap.lookup (cellMediaName c) = some info ∧ vm = info.iid + 1) cells vms ∧
    (∀ i j (hi : i < cells.length) (hj : j < cells.length)
        (hvi : i < vms.length) (hvj : j < vms.length),
      cells.get ⟨i, hi⟩ = cells.get ⟨j, hj⟩ → vms.get ⟨i, hvi⟩ = vms.get ⟨j, hvj⟩) ∧
    (writeMedia stf).length = stf.media.length := by
  have hinv0 : MInv emptyMedia :=
    ⟨fun n i hn => by simp [List.lookup, emptyMedia] at hn,
      fun i hi => by simp [emptyMedia] at hi,
      by simp [emptyMedia],
      fun i hi => by simp [emptyMedia] at hi⟩
  obtain ⟨⟨hl, hm, hnd, hiid⟩, _, _, hfar⟩ := runPictures_spec cells emptyMedia hinv0 vms stf h
  refine ⟨hnd, hiid, hfar, ?_, by simp [writeMedia]⟩
  intro i j hi hj hvi hvj heq
  obtain ⟨info1, hl1, hv1⟩ := hfar.get hi hvi
  obtain ⟨info2, hl2, hv2⟩ := hfar.get hj hvj
  rw [heq] at hl1
  obtain rfl := Option.some.inj (hl1.symm.trans hl2)
  rw [hv1, hv2]

/-- Witness for C7: two cells with the same one-byte PNG payload produce one
media record with internal id 0, both cells receiving `vm = 1`. -/
theorem C7_media_dedup_witness :
    ((XL.runPictures XL.emptyMedia [(".png", [1]), (".png", [1])] =
      .ok ([1, 1], ⟨[⟨"af63bd4c8601b7de.png", [1], 0, "rId1"⟩],
        [("af63bd4c8601b7de.png", ⟨"af63bd4c8601b7de.png", [1], 0, "rId1"⟩)], 1⟩)) ∧
    ((⟨[⟨"af63bd4c8601b7de.png", [1], 0, "rId1"⟩],
        [("af63bd4c8601b7de.png", ⟨"af63bd4c8601b7de.png", [1], 0, "rId1"⟩)], 1⟩ :
      MediaState).media.map MediaInfo.name).Nodup ∧
    (writeMedia ⟨[⟨"af63bd4c8601b7de.png", [1], 0, "rId1"⟩],
        [("af63bd4c8601b7de.png", ⟨"af63bd4c8601b7de.png", [1], 0, "rId1"⟩)], 1⟩).length =
      (⟨[⟨"af63bd4c8601b7de.png", [1], 0, "rId1"⟩],
        [("af63bd4c8601b7de.png", ⟨"af63bd4c8601b7de.png", [1], 0, "rId1"⟩)], 1⟩ :
      MediaState).media.length) :=
  have hrun : XL.runPictures XL.emptyMedia [(".png", [1]), (".png", [1])] =
      .ok ([1, 1], ⟨[⟨"af63bd4c8601b7de.png", [1], 0, "rId1"⟩],
        [("af63bd4c8601b7de.png", ⟨"af63bd4c8601b7de.png", [1], 0, "rId1"⟩)], 1⟩) := by decide
  ⟨hrun,
    (C7_media_dedup [(".png", [1]), (".png", [1])] [1, 1] _ hrun).1,
    (C7_media_dedup [(".png", [1]), (".png", [1])] [1, 1] _ hrun).2.2.2.2⟩

/-! ## The part-emission pipeline (`Writer.Write`, writer.go)

For the abort-behaviour claim the pipeline is modelled at the granularity of
emitted part paths.  A cell is represented by what `writeSheet` observes of
it: whether its `XF` is non-empty (`styled`), and its value class — scalar
values never fail; a shared-string value marks the shared-string table
non-empty; a picture value carries the optional `PictureInfo` (extension and
payload), `none` standing for a nil `picture` pointer.  Rows are flattened
into the sheet's cell list in traversal order (row structure affects no
emitted path and no error).  Only picture handling can fail; every other
step of `Write` emits its fixed path unconditionally, `sharedStrings.xml`
and `styles.xml` being guarded by table non-emptiness and the media/richData
block by media non-emptiness, exactly as in the source. -/

inductive WVal
  | unsetV
  | boolV
  | numV
  | errV
  | strV
  | picV (p : Option (String × List Nat))
deriving DecidableEq, Repr

structure WCell where
  styled : Bool
  val : WVal
deriving DecidableEq, Repr

structure WSheet where
  name : String
  cells : List WCell
deriving DecidableEq, Repr

/-- Media-relevant processing of one cell in `writeSheet`. -/
def processCell (st : MediaState) (c : WCell) : Except PicErr MediaState :=
  match c.val with
  | .picV none => .error .missing
  | .picV (some (e, b)) =>
    match registerPicture st e b with
    | .error err => .error err
    | .ok (_, st2) => .ok st2
  | _ => .ok st

def processSheetCells : MediaState → List WCell → Except PicErr MediaState
  | st, [] => .ok st
  | st, c :: cs =>
    match processCell st c with
    | .error e => .error e
    | .ok st2 => processSheetCells st2 cs

def sheetPath (sh : WSheet) : String := "/xl/worksheets/" ++ sh.name ++ ".xml"

/-- The worksheet-part loop inside `writeWorkbook`: each sheet's part is
written when its cell walk succeeds; the first failing sheet aborts the loop
with no part of its own.  Returns the emitted worksheet paths, the error if
any, and the final writer media state. -/
def writeSheets : MediaState → List WSheet → List String × Option PicErr × MediaState
  | st, [] => ([], none, st)
  | st, sh :: rest =>
    match processSheetCells st sh.cells with
    | .error e => ([], some e, st)
    | .ok st2 =>
      let r := writeSheets st2 rest
      (sheetPath sh :: r.1, r.2.1, r.2.2)

def cellIsString (c : WCell) : Bool :=
  match c.val with
  | .strV => true
  | _ => false

def hasStrings (sheets : List WSheet) : Bool :=
  sheets.any fun sh => sh.cells.any cellIsString

def hasStyles (sheets : List WSheet) : Bool :=
  sheets.any fun sh => sh.cells.any (·.styled)

/-- `Writer.Write` at part-path granularity: the worksheet parts (and
`workbook.xml` after them), then the media/richData block when a picture was
seen, the document properties, the conditional shared-strings and styles
parts, and the relationship and content-type indexes; any error aborts
immediately with no further part emitted. -/
def WriteM (sheets : List WSheet) : List String × Option PicErr :=
  match writeSheets emptyMedia sheets with
  | (blobs, some e, _) => (blobs, some e)
  | (blobs, none, stf) =>
    (blobs ++ ["/xl/workbook.xml"] ++
      (if 0 < stf.media.length then
        (writeMedia stf).map Prod.fst ++
          ["/xl/richData/richValueRel.xml", "/xl/richData/_rels/richValueRel.xml.rels",
            "/xl/richData/rdrichvaluestructure.xml", "/xl/richData/rdrichvalue.xml",
            "/xl/metadata.xml"]
      else []) ++
      ["/docProps/core.xml", "/docProps/app.xml"] ++
      (if hasStrings sheets then ["/xl/sharedStrings.xml"] else []) ++
      (if hasStyles sheets then ["/xl/styles.xml"] else []) ++
      ["/xl/_rels/workbook.xml.rels", "/_rels/.rels", "[Content_Types].xml"], none)

/-- A picture cell is bad exactly when its payload is missing, its normalised
extension is unsupported, or its payload is empty. -/
def badCell (c : WCell) : Bool :=
  match c.val with
  | .picV none => true
  | .picV (some (e, b)) =>
    !(decide (normalizeExt e = ".jpeg") || decide (normalizeExt e = ".png")) ||
      decide (b.length = 0)
  | _ => false

def sheetHasBadPic (sh : WSheet) : Bool := sh.cells.any badCell

def cellPics (c : WCell) : List (String × List Nat) :=
  match c.val with
  | .picV (some p) => [p]
  | _ => []

def sheetPics (sh : WSheet) : List (String × List Nat) :=
  sh.cells.flatMap cellPics

def picsOf (sheets : List WSheet) : List (String × List Nat) :=
  sheets.flatMap sheetPics

/-- Content-addressing assumption for one workbook, sanctioned by the spec
("practical uniqueness within one package"): two picture payloads of the
document with the same media name have the same bytes. -/
def NameInj (P : List (String × List Nat)) : Prop :=
  ∀ p ∈ P, ∀ q ∈ P, cellMediaName p = cellMediaName q → p.2 = q.2

/-- Provenance: every media record stored so far came from one of the
document's picture cells. -/
def Prov (P : List (String × List Nat)) (st : MediaState) : Prop :=
  ∀ info ∈ st.media, ∃ q ∈ P, info.name = cellMediaName q ∧ info.blob = q.2

lemma MInv_empty : MInv emptyMedia :=
  ⟨fun n i hn => by simp [List.lookup, emptyMedia] at hn,
    fun i hi => by simp [emptyMedia] at hi,
    by simp [emptyMedia],
    fun i hi => by simp [emptyMedia] at hi⟩

lemma registerPicture_media_cases (st : MediaState) (e : String) (b : List Nat) (vm : Nat)
    (st2 : MediaState) (h : registerPicture st e b = .ok (vm, st2)) :
    st2.media = st.media ∨
      st2.media = st.media ++ [⟨mediaName (normalizeExt e) b, b, st.media.length,
        "rId" ++ toString (st.lastRichDataId + 1)⟩] := by
  rw [registerPicture] at h
  by_cases hext : normalizeExt e = ".jpeg" ∨ normalizeExt e = ".png"
  · rw [if_pos hext] at h
    dsimp only at h
    cases hlook : st.mediaMap.lookup (mediaName (normalizeExt e) b) with
    | some info =>
      rw [hlook] at h
      dsimp only at h
      by_cases hb : info.blob.length = 0
      · rw [if_pos hb] at h; cases h
      · rw [if_neg hb] at h
        obtain ⟨h1, h2⟩ := Prod.mk.injEq _ _ _ _ ▸ Except.ok.inj h
        subst h2
        exact Or.inl rfl
    | none =>
      rw [hlook] at h
      dsimp only at h
      by_cases hb : b.length = 0
      · rw [if_pos hb] at h; cases h
      · rw [if_neg hb] at h
        obtain ⟨h1, h2⟩ := Prod.mk.injEq _ _ _ _ ▸ Except.ok.inj h
        subst h2
        exact Or.inr rfl
  · rw [if_neg hext] at h
    cases h

lemma registerPicture_prov {P : List (String × List Nat)} (st : MediaState) (e : String)
    (b : List Nat) (vm : Nat) (st2 : MediaState) (h : registerPicture st e b = .ok (vm, st2))
    (hprov : Prov P st) (hmem : (e, b) ∈ P) : Prov P st2 := by
  rcases registerPicture_media_cases st e b vm st2 h with hc | hc
  · intro info hinfo
    rw [hc] at hinfo
    exact hprov info hinfo
  · intro info hinfo
    rw [hc] at hinfo
    rcases List.mem_append.1 hinfo with hold | hnew
    · exact hprov info hold
    · rcases List.mem_singleton.1 hnew with rfl
      exact ⟨(e, b), hmem, rfl, rfl⟩

/-- Under the content-addressing assumption, a stored record found by a
cell's media name holds that cell's bytes. -/
lemma lookup_blob_eq {P : List (String × List Nat)} {st : MediaState} {e : String}
    {b : List Nat} {info : MediaInfo} (hP : NameInj P) (hinv : MInv st) (hprov : Prov P st)
    (hmem : (e, b) ∈ P)
    (hlook : st.mediaMap.lookup (mediaName (normalizeExt e) b) = some info) :
    info.blob = b := by
  obtain ⟨hin, hname⟩ := hinv.1 _ _ hlook
  obtain ⟨q, hq, hqname, hqblob⟩ := hprov info hin
  have hn2 : cellMediaName q = cellMediaName (e, b) := by
    rw [← hqname, hname]
    rfl
  rw [hqblob]
  exact hP q hq (e, b) hmem hn2

lemma processCell_spec {P : List (String × List Nat)} (hP : NameInj P) (st : MediaState)
    (hinv : MInv st) (hprov : Prov P st) (c : WCell) (hc : ∀ p ∈ cellPics c, p ∈ P) :
    (badCell c = true → ∃ e, processCell st c = .error e) ∧
    (badCell c = false →
      ∃ st2, processCell st c = .ok st2 ∧ MInv st2 ∧ Prov P st2) := by
  cases hv : c.val with
  | picV p =>
    cases p with
    | none =>
      refine ⟨fun _ => ⟨.missing, by simp only [processCell, hv]⟩, fun hbad => ?_⟩
      rw [badCell, hv] at hbad
      cases hbad
    | some pb =>
      obtain ⟨e, b⟩ := pb
      have hmem : (e, b) ∈ P := hc (e, b) (by simp [cellPics, hv])
      by_cases hext : normalizeExt e = ".jpeg" ∨ normalizeExt e = ".png"
      · by_cases hb0 : b.length = 0
        · refine ⟨fun _ => ⟨.empty, ?_⟩, fun hbad => ?_⟩
          · simp only [processCell, hv]
            have hreg : registerPicture st e b = .error .empty := by
              rw [registerPicture, if_pos hext]
              dsimp only
              cases hlook : st.mediaMap.lookup (mediaName (normalizeExt e) b) with
              | some info =>
                dsimp only
                rw [if_pos (by rw [lookup_blob_eq hP hinv hprov hmem hlook]; exact hb0)]
              | none =>
                dsimp only
                rw [if_pos hb0]
            rw [hreg]
          · rw [badCell, hv] at hbad
            simp [hb0] at hbad
        · refine ⟨fun hbad => ?_, fun _ => ?_⟩
          · rw [badCell, hv] at hbad
            rcases hext with h | h <;> simp [h, hb0] at hbad
          · have hreg : ∃ vm st2, registerPicture st e b = .ok (vm, st2) := by
              rw [registerPicture, if_pos hext]
              dsimp only
              cases hlook : st.mediaMap.lookup (mediaName (normalizeExt e) b) with
              | some info =>
                dsimp only
                rw [if_neg (by rw [lookup_blob_eq hP hinv hprov hmem hlook]; exact hb0)]
                exact ⟨_, _, rfl⟩
              | none =>
                dsimp only
                rw [if_neg hb0]
                exact ⟨_, _, rfl⟩
            obtain ⟨vm, st2, hreg⟩ := hreg
            refine ⟨st2, by simp only [processCell, hv]; rw [hreg], ?_, ?_⟩
            · exact (registerPicture_ok st e b vm st2 hreg hinv).1
            · exact registerPicture_prov st e b vm st2 hreg hprov hmem
      · refine ⟨fun _ => ⟨.unsupported, ?_⟩, fun hbad => ?_⟩
        · simp only [processCell, hv]
          rw [show registerPicture st e b = .error .unsupported from by
            rw [registerPicture, if_neg hext]]
        · rw [badCell, hv] at hbad
          have h1 : normalizeExt e ≠ ".jpeg" := fun hh => hext (Or.inl hh)
          have h2 : normalizeExt e ≠ ".png" := fun hh => hext (Or.inr hh)
          simp [h1, h2] at hbad
  | unsetV =>
    refine ⟨fun hbad => ?_, fun _ => ⟨st, by simp only [processCell, hv], hinv, hprov⟩⟩
    rw [badCell, hv] at hbad
    cases hbad
  | boolV =>
    refine ⟨fun hbad => ?_, fun _ => ⟨st, by simp only [processCell, hv], hinv, hprov⟩⟩
    rw [badCell, hv] at hbad
    cases hbad
  | numV =>
    refine ⟨fun hbad => ?_, fun _ => ⟨st, by simp only [processCell, hv], hinv, hprov⟩⟩
    rw [badCell, hv] at hbad
    cases hbad
  | errV =>
    refine ⟨fun hbad => ?_, fun _ => ⟨st, by simp only [processCell, hv], hinv, hprov⟩⟩
    rw [badCell, hv] at hbad
    cases hbad
  | strV =>
    refine ⟨fun hbad => ?_, fun _ => ⟨st, by simp only [processCell, hv], hinv, hprov⟩⟩
    rw [badCell, hv] at hbad
    cases hbad

lemma processSheetCells_spec {P : List (String × List Nat)} (hP : NameInj P)
    (cells : List WCell) : ∀ st : MediaState, MInv st → Prov P st →
    (∀ p ∈ cells.flatMap cellPics, p ∈ P) →
    ((cells.any badCell = true → ∃ e, processSheetCells st cells = .error e) ∧
      (cells.any badCell = false →
        ∃ st2, processSheetCells st cells = .ok st2 ∧ MInv st2 ∧ Prov P st2)) := by
  induction cells with
  | nil =>
    intro st hinv hprov _
    exact ⟨fun hbad => by simp at hbad, fun _ => ⟨st, rfl, hinv, hprov⟩⟩
  | cons c cs ih =>
    intro st hinv hprov hpics
    have hcp : ∀ p ∈ cellPics c, p ∈ P := fun p hp => hpics p (by simp [hp])
    obtain ⟨hcbad, hcok⟩ := processCell_spec hP st hinv hprov c hcp
    by_cases hb : badCell c
    · obtain ⟨e, he⟩ := hcbad hb
      refine ⟨fun _ => ⟨e, ?_⟩, fun hall => ?_⟩
      · simp only [processSheetCells, he]
      · simp only [List.any_cons, hb, Bool.true_or] at hall
        cases hall
    · obtain ⟨st2, hok, hinv2, hprov2⟩ := hcok (by simpa using hb)
      have hsub : ∀ p ∈ cs.flatMap cellPics, p ∈ P := fun p hp => hpics p (by simp [hp])
      obtain ⟨ih1, ih2⟩ := ih st2 hinv2 hprov2 hsub
      constructor
      · intro hany
        simp only [List.any_cons, (by simpa using hb : badCell c = false),
          Bool.false_or] at hany
        obtain ⟨e, he⟩ := ih1 hany
        exact ⟨e, by simp only [processSheetCells, hok, he]⟩
      · intro hall
        simp only [List.any_cons, (by simpa using hb : badCell c = false),
          Bool.false_or] at hall
        obtain ⟨stf, hf, hif, hpf⟩ := ih2 hall
        exact ⟨stf, by simp only [processSheetCells, hok, hf], hif, hpf⟩

lemma writeSheets_abort {P : List (String × List Nat)} (hP : NameInj P)
    (sheets : List WSheet) : ∀ (st : MediaState) (k : Nat) (hk : k < sheets.length),
    MInv st → Prov P st → (∀ p ∈ picsOf sheets, p ∈ P) →
    sheetHasBadPic (sheets.get ⟨k, hk⟩) = true →
    (∀ j (hj : j < k), sheetHasBadPic (sheets.get ⟨j, Nat.lt_trans hj hk⟩) = false) →
    ∃ e stx, writeSheets st sheets = ((sheets.take k).map sheetPath, some e, stx) := by
  induction sheets with
  | nil =>
    intro st k hk
    simp at hk
  | cons sh rest ih =>
    intro st k hk hinv hprov hpics hbad hgood
    have hshp : ∀ p ∈ sh.cells.flatMap cellPics, p ∈ P := fun p hp =>
      hpics p (by simp only [picsOf, List.flatMap_cons, List.mem_append]; exact Or.inl hp)
    cases k with
    | zero =>
      have hbad0 : sh.cells.any badCell = true := by simpa [sheetHasBadPic] using hbad
      obtain ⟨e, he⟩ := (processSheetCells_spec hP sh.cells st hinv hprov hshp).1 hbad0
      exact ⟨e, st, by simp only [writeSheets, he, List.take_zero, List.map_nil]⟩
    | succ j =>
      have hgood0 : sh.cells.any badCell = false := by
        simpa [sheetHasBadPic] using hgood 0 (Nat.succ_pos j)
      obtain ⟨st2, hok, hinv2, hprov2⟩ :=
        (processSheetCells_spec hP sh.cells st hinv hprov hshp).2 hgood0
      have hsub : ∀ p ∈ picsOf rest, p ∈ P := fun p hp =>
        hpics p (by simp only [picsOf, List.flatMap_cons, List.mem_append]; exact Or.inr hp)
      obtain ⟨e, stx, hrest⟩ := ih st2 j (by simpa using hk) hinv2 hprov2 hsub
        (by simpa using hbad) (fun i hi => by simpa using hgood (i + 1) (by omega))
      refine ⟨e, stx, ?_⟩
      simp only [writeSheets, hok, hrest, List.take_succ_cons, List.map_cons]

/-- C9: if some sheet of the document contains a picture cell whose payload
is missing or empty, or whose normalised extension is neither ".jpeg" nor
".png", then `Write` returns an error, and the parts emitted are exactly the
worksheet parts of the sheets before the first offending one — nothing is
emitted after the failure.  The `NameInj` hypothesis is the spec's
content-addressing assumption (same media name ⇒ same bytes within one
package). -/
theorem C9_picture_errors_abort (sheets : List WSheet) (k : Nat) (hk : k < sheets.length)
    (hP : NameInj (picsOf sheets))
    (hbad : sheetHasBadPic (sheets.get ⟨k, hk⟩) = true)
    (hgood : ∀ j (hj : j < k), sheetHasBadPic (sheets.get ⟨j, Nat.lt_trans hj hk⟩) = false) :
    ∃ e, WriteM sheets = ((sheets.take k).map sheetPath, some e) := by
  obtain ⟨e, stx, hws⟩ := writeSheets_abort hP sheets emptyMedia k hk MInv_empty
    (fun info h => by simp [emptyMedia] at h) (fun p hp => hp) hbad hgood
  refine ⟨e, ?_⟩
  simp only [WriteM]
  rw [hws]

/-- Witness for C9: a workbook whose single sheet holds one ".gif" picture
cell; `Write` fails before emitting any part. -/
theorem C9_picture_errors_abort_witness :
    ∃ e, WriteM [⟨"s", [⟨false, .picV (some (".gif", [1]))⟩]⟩] = ([], some e) :=
  C9_picture_errors_abort [⟨"s", [⟨false, .picV (some (".gif", [1]))⟩]⟩] 0 (by decide)
    (by unfold NameInj; decide) (by decide) (fun j hj => absurd hj (Nat.not_lt_zero j))

end XL
